import Mathlib

/-!
# Verification of the jira-metrics eazybi cloud function core

Shallow embedding of the numeric core of `src/main.py`:
`calc_cycletime_percentile`, `calc_throughput`, `run_simulation`, and the
merge step of `main` (lines 40-41).  pandas DataFrames are modelled as a
column list plus a list of rows; dates as integer day ordinals; all
numeric values as exact rationals; fallible paths (Python's implicit
`return None`) as `Option`.  The random sampling inside `run_simulation`
is not embeddable, so the per-simulation outcome totals are passed as an
explicit list parameter; everything downstream of the sampling is
translated faithfully.
-/

namespace JiraMetrics

/-- One row of the eazybi report table: `get_eazybi_report` renames the
csv columns to `project, date, issue, cycletime`.  Dates are integer day
ordinals, cycletimes exact rationals. -/
structure IssueRecord where
  project : String
  date : Int
  issue : String
  cycletime : Rat
deriving DecidableEq, Repr

/-- The kanban table: a pandas DataFrame modelled as its column list
together with its rows (`calc_throughput` tests `"date" in
kanban_data.columns`). -/
structure KanbanData where
  cols : List String
  rows : List IssueRecord
deriving DecidableEq, Repr

/-- The validated request configuration: the fields of the json schema in
`test_config` that the numeric core reads. -/
structure Cfg where
  cycletimePercentiles : List Rat
  throughputRange : Int
  simulations : Nat
  simulationDays : Nat
  montecarloPercentiles : List Rat
deriving DecidableEq, Repr

/-- Distinct values of a list, sorted ascending: the index produced by
pandas `groupby` / `crosstab` (both sort their group keys). -/
def distinctSorted {α : Type} [DecidableEq α] [LinearOrder α] (l : List α) : List α :=
  List.insertionSort (· ≤ ·) l.dedup

/-- pandas `Series.quantile(q)` with the default linear interpolation:
sort the values, set `h = q * (n - 1)`, and interpolate between the order
statistics at ranks `⌊h⌋` and `⌈h⌉`.  (`Rat.floor` / `Rat.ceil` are the
computable floor and ceiling on `Rat`.) -/
def quantile (l : List Rat) (q : Rat) : Rat :=
  let vs := List.insertionSort (· ≤ ·) l
  let h : Rat := q * ((l.length : Rat) - 1)
  vs.getD h.floor.toNat 0 + (h - (h.floor : Rat)) * (vs.getD h.ceil.toNat 0 - vs.getD h.floor.toNat 0)

/-- The cycletime column of one `groupby("project")` group. -/
def projectCycletimes (rows : List IssueRecord) (proj : String) : List Rat :=
  (rows.filter (fun r => decide (r.project = proj))).map (·.cycletime)

/-- The group keys of `kanban_data.groupby("project")`. -/
def projectsOf (rows : List IssueRecord) : List String :=
  distinctSorted (rows.map (·.project))

/-- `calc_cycletime_percentile` (main.py 135-153): `None` on an empty
table, otherwise one row per project (groupby sorts the projects), and
for each configured percentile `p` the column value
`int(np.ceil(quantile(p / 100)))`, here `(p, ⌈quantile⌉)`. -/
def calc_cycletime_percentile (cfg : Cfg) (kd : KanbanData) :
    Option (List (String × List (Rat × Int))) :=
  if kd.rows.isEmpty then none
  else
    some ((projectsOf kd.rows).map (fun proj =>
      (proj, cfg.cycletimePercentiles.map (fun p =>
        (p, (quantile (projectCycletimes kd.rows proj) (p / 100)).ceil)))))

/-- `calc_throughput` filter `kanban_data["date"] >= start_date` (skipped
when `start_date is None`). -/
def filterStart (rows : List IssueRecord) : Option Int → List IssueRecord
  | some s => rows.filter (fun r => decide (s ≤ r.date))
  | none => rows

/-- `calc_throughput` filter `kanban_data["date"] <= end_date` (skipped
when `end_date is None`). -/
def filterEnd (rows : List IssueRecord) : Option Int → List IssueRecord
  | some e => rows.filter (fun r => decide (r.date ≤ e))
  | none => rows

/-- Number of records completed on day `d` (one cell of the
`pd.crosstab(kanban_data.date, columns=["issues"])` table). -/
def countDate (rows : List IssueRecord) (d : Int) : Nat :=
  (rows.filter (fun r => decide (r.date = d))).length

/-- `pd.crosstab(kanban_data.date, ...)`: one row per distinct date
(sorted ascending, as pandas sorts the index) with its record count. -/
def crosstab (rows : List IssueRecord) : List (Int × Nat) :=
  (distinctSorted (rows.map (·.date))).map (fun d => (d, countDate rows d))

/-- `pd.date_range(start, end)`: every calendar day from `s` to `e`
inclusive (empty when `e < s`). -/
def dateRange (s e : Int) : List Int :=
  (List.range (e - s + 1).toNat).map (fun i : Nat => s + (i : Int))

/-- `reindex(date_range, fill_value=0)` lookup: the count recorded for
`d`, or `0` when `d` is absent. -/
def lookupCount (tp : List (Int × Nat)) (d : Int) : Nat :=
  match tp.find? (fun q => decide (q.1 = d)) with
  | some q => q.2
  | none => 0

/-- `calc_throughput` (main.py 155-189): requires a `"date"` column,
filters to the requested window, returns `None` when the filtered table
is empty, and densifies onto `date_range(start, end)` with zero fill
exactly when both bounds are supplied. -/
def calc_throughput (kd : KanbanData) (start_date end_date : Option Int) :
    Option (List (Int × Nat)) :=
  if "date" ∈ kd.cols then
    let rows := filterEnd (filterStart kd.rows start_date) end_date
    if rows.isEmpty then none
    else
      let tp := crosstab rows
      match start_date, end_date with
      | some s, some e =>
          if tp.isEmpty then some tp
          else some ((dateRange s e).map (fun d => (d, lookupCount tp d)))
      | _, _ => some tp
  else none

/-- `samples.groupby(["Items"]).size()`: one row per distinct simulated
total (ascending, as groupby sorts), with its frequency. -/
def groupFreq (outcomes : List Nat) : List (Nat × Nat) :=
  (distinctSorted outcomes).map (fun v => (v, outcomes.count v))

/-- Sum of the `Frequency` column (`distribution.Frequency.sum()`). -/
def freqSum (rows : List (Nat × Nat)) : Nat :=
  (rows.map (·.2)).sum

/-- The cumulative `Probability` column:
`100 * distribution.Frequency.cumsum() / distribution.Frequency.sum()`,
computed in the order the rows have after `sort_index(ascending=False)`;
`acc` is the frequency already accumulated above the current row. -/
def cumRows (total : Rat) (acc : Nat) : List (Nat × Nat) → List (Nat × Rat)
  | [] => []
  | (v, f) :: rest => (v, 100 * ((acc + f : Nat) : Rat) / total) :: cumRows total (acc + f) rest

/-- The empirical distribution built by `run_simulation` (main.py
216-222) from the list of per-simulation outcome totals: group by
distinct total, reverse to descending order (`sort_index(ascending=False)`
reverses the freshly reset 0..k-1 index), then attach the cumulative
probability column. -/
def buildDistribution (outcomes : List Nat) : List (Nat × Rat) :=
  let desc := (groupFreq outcomes).reverse
  cumRows ((freqSum desc : Nat) : Rat) 0 desc

/-- `Series.idxmin` on the `|Probability - percentile|` series: the
position of the first row (in the series' current order) attaining the
minimal absolute difference. -/
def idxminAbs (p : Rat) : List Rat → Nat
  | [] => 0
  | [_] => 0
  | x :: y :: ys =>
    if |x - p| ≤ |(y :: ys).getD (idxminAbs p (y :: ys)) 0 - p| then 0
    else idxminAbs p (y :: ys) + 1

/-- The `Items` value `run_simulation` reports for one percentile:
`distribution.loc[distribution["Probability"].sub(p).abs().idxmin(), "Items"]`. -/
def nearestItem (dist : List (Nat × Rat)) (p : Rat) : Nat :=
  (dist.getD (idxminAbs p (dist.map (·.2))) (0, 0)).1

/-- `run_simulation` (main.py 191-236).  The random resampling of the
throughput series is not embeddable, so the `simul` per-simulation
outcome totals are an explicit parameter `outcomes`; everything after the
sampling loop is translated directly.  The result is the transposed
one-row frame keyed `"issues"` with one `montecarlo <p>%` column per
requested percentile; `None` when `throughput` is `None`. -/
def run_simulation (cfg : Cfg) (throughput : Option (List (Int × Nat)))
    (outcomes : List Nat) : Option (List (String × List (String × Nat))) :=
  match throughput with
  | none => none
  | some _ =>
    some [("issues", cfg.montecarloPercentiles.map (fun p =>
      ("montecarlo " ++ toString p ++ "%", nearestItem (buildDistribution outcomes) p)))]

/-- `mc.rename(index={"issues": kanban_data.loc[0]["project"]})` (main.py
line 40). -/
def renameIndex {α : Type} (tbl : List (String × α)) (oldKey newKey : String) :
    List (String × α) :=
  tbl.map (fun q => (if q.1 = oldKey then newKey else q.1, q.2))

/-- `ct.merge(mc, left_index=True, right_index=True)` (main.py line 41):
pandas' default `how="inner"` join on the row index.  Both tables here
have unique keys (one row per project, one forecast row), for which the
inner join keeps exactly the left rows whose key also occurs on the
right. -/
def mergeInner {α β : Type} (left : List (String × α)) (right : List (String × β)) :
    List (String × (α × β)) :=
  left.filterMap (fun q =>
    match right.find? (fun w => decide (w.1 = q.1)) with
    | some w => some (q.1, (q.2, w.2))
    | none => none)

/-- The merge step of `main` (lines 40-41): relabel the forecast row from
`"issues"` to the project of the first kanban row, then join with the
cycletime table. -/
def mergeStep {α β : Type} (ct : List (String × α)) (mc : List (String × β))
    (firstProject : String) : List (String × (α × β)) :=
  mergeInner ct (renameIndex mc "issues" firstProject)

/-- `kanban_data.loc[0]["project"]` (main.py line 40): the project of the
first row of the kanban table. -/
def firstProjectOf (kd : KanbanData) : String :=
  (kd.rows.headD ⟨"", 0, "", 0⟩).project

/-! ## Helper lemmas -/

/-- The computable `Rat.floor` agrees with Mathlib's `Int.floor`. -/
lemma ratFloor_eq (q : Rat) : q.floor = ⌊q⌋ := rfl

/-- The computable `Rat.ceil` agrees with Mathlib's `Int.ceil`. -/
lemma ratCeil_eq (q : Rat) : q.ceil = ⌈q⌉ := by
  symm
  rw [Int.ceil_eq_iff]
  unfold Rat.ceil
  split
  · next h =>
      have hq : ((q.num : Int) : Rat) = q := by
        conv_rhs => rw [← Rat.num_div_den q]
        rw [h]
        simp
      rw [hq]
      exact ⟨sub_one_lt q, le_refl q⟩
  · next h =>
      have hfl : q.num / (q.den : Int) = ⌊q⌋ := Rat.floor_def.symm
      rw [hfl]
      constructor
      · push_cast
        have hle : ((⌊q⌋ : Int) : Rat) ≤ q := Int.floor_le q
        have hne : ((⌊q⌋ : Int) : Rat) ≠ q := by
          intro heq
          exact h (by rw [← heq]; exact Rat.den_intCast _)
        have : ((⌊q⌋ : Int) : Rat) < q := lt_of_le_of_ne hle hne
        linarith
      · push_cast
        exact (Int.lt_floor_add_one q).le


lemma mem_distinctSorted {α : Type} [DecidableEq α] [LinearOrder α] {a : α} {l : List α} :
    a ∈ distinctSorted l ↔ a ∈ l := by
  unfold distinctSorted
  rw [List.mem_insertionSort, List.mem_dedup]

lemma nodup_distinctSorted {α : Type} [DecidableEq α] [LinearOrder α] (l : List α) :
    (distinctSorted l).Nodup := by
  unfold distinctSorted
  exact (List.perm_insertionSort _ _).nodup_iff.mpr (List.nodup_dedup l)

lemma sorted_distinctSorted {α : Type} [DecidableEq α] [LinearOrder α] (l : List α) :
    List.Sorted (· ≤ ·) (distinctSorted l) :=
  List.sorted_insertionSort _ _

lemma isEmpty_false_of_ne_nil {α : Type} {l : List α} (h : l ≠ []) : l.isEmpty = false := by
  cases k : l with
  | nil => exact absurd k h
  | cons a t => rfl

/-- A singleton sample has every quantile equal to its unique value. -/
lemma quantile_singleton (v q : Rat) : quantile [v] q = v := by
  unfold quantile
  simp [ratFloor_eq, ratCeil_eq]

/-! ## Claim theorems -/

/-- C1: for every non-empty issue table, every project in it and every
requested percentile `p`, the value `calc_cycletime_percentile` reports
is the integer ceiling of the linearly interpolated `p`-th quantile of
that project's cycletimes; hence `report ≥ true_quantile` and
`report < true_quantile + 1`. -/
theorem c1_cycletime_ceiling (cfg : Cfg) (kd : KanbanData) (proj : String) (p : Rat)
    (hne : kd.rows ≠ []) (hproj : proj ∈ kd.rows.map (·.project))
    (hp : p ∈ cfg.cycletimePercentiles) (hp0 : 0 < p) (hp100 : p ≤ 100) :
    ∃ ct row,
      calc_cycletime_percentile cfg kd = some ct ∧
      (proj, row) ∈ ct ∧
      (p, (quantile (projectCycletimes kd.rows proj) (p / 100)).ceil) ∈ row ∧
      quantile (projectCycletimes kd.rows proj) (p / 100) ≤
        ((quantile (projectCycletimes kd.rows proj) (p / 100)).ceil : Rat) ∧
      ((quantile (projectCycletimes kd.rows proj) (p / 100)).ceil : Rat) <
        quantile (projectCycletimes kd.rows proj) (p / 100) + 1 := by
  have hE : kd.rows.isEmpty = false := isEmpty_false_of_ne_nil hne
  refine ⟨(projectsOf kd.rows).map (fun pr =>
      (pr, cfg.cycletimePercentiles.map (fun x =>
        (x, (quantile (projectCycletimes kd.rows pr) (x / 100)).ceil)))),
    cfg.cycletimePercentiles.map (fun x =>
      (x, (quantile (projectCycletimes kd.rows proj) (x / 100)).ceil)),
    ?_, ?_, ?_, ?_, ?_⟩
  · simp [calc_cycletime_percentile, hE]
  · exact List.mem_map_of_mem _ ((mem_distinctSorted (l := kd.rows.map (·.project))).mpr hproj)
  · exact List.mem_map_of_mem _ hp
  · rw [ratCeil_eq]
    exact Int.le_ceil _
  · rw [ratCeil_eq]
    exact Int.ceil_lt_add_one _

/-- C1 witness: the theorem instantiated at a concrete two-record table. -/
theorem c1_cycletime_ceiling_witness :
    ∃ ct row,
      calc_cycletime_percentile ⟨[50], 30, 100, 10, [85]⟩
        ⟨["project", "date", "issue", "cycletime"],
          [⟨"JP", 0, "i1", 5⟩, ⟨"JP", 1, "i2", 12⟩]⟩ = some ct ∧
      ("JP", row) ∈ ct ∧
      (50, (quantile (projectCycletimes
        [⟨"JP", 0, "i1", 5⟩, ⟨"JP", 1, "i2", 12⟩] "JP") (50 / 100)).ceil) ∈ row ∧
      quantile (projectCycletimes [⟨"JP", 0, "i1", 5⟩, ⟨"JP", 1, "i2", 12⟩] "JP") (50 / 100) ≤
        ((quantile (projectCycletimes
          [⟨"JP", 0, "i1", 5⟩, ⟨"JP", 1, "i2", 12⟩] "JP") (50 / 100)).ceil : Rat) ∧
      ((quantile (projectCycletimes
          [⟨"JP", 0, "i1", 5⟩, ⟨"JP", 1, "i2", 12⟩] "JP") (50 / 100)).ceil : Rat) <
        quantile (projectCycletimes [⟨"JP", 0, "i1", 5⟩, ⟨"JP", 1, "i2", 12⟩] "JP") (50 / 100) + 1 :=
  c1_cycletime_ceiling ⟨[50], 30, 100, 10, [85]⟩
    ⟨["project", "date", "issue", "cycletime"], [⟨"JP", 0, "i1", 5⟩, ⟨"JP", 1, "i2", 12⟩]⟩
    "JP" 50 (by with_unfolding_all decide) (by with_unfolding_all decide)
    (by with_unfolding_all decide) (by with_unfolding_all decide) (by with_unfolding_all decide)

/-- C5: when the throughput argument is null, `run_simulation` returns
null without sampling. -/
theorem c5_null_throughput (cfg : Cfg) (outcomes : List Nat) :
    run_simulation cfg none outcomes = none := rfl

/-- C6: on a table with zero rows, `calc_cycletime_percentile` and
`calc_throughput` both return the absent result (`None`); no synthetic
rows are fabricated. -/
theorem c6_empty_table (cfg : Cfg) (kd : KanbanData) (start_date end_date : Option Int)
    (h : kd.rows = []) :
    calc_cycletime_percentile cfg kd = none ∧
    calc_throughput kd start_date end_date = none := by
  have h1 : filterStart kd.rows start_date = [] := by
    cases start_date <;> simp [filterStart, h]
  have h2 : filterEnd (filterStart kd.rows start_date) end_date = [] := by
    cases end_date <;> simp [filterEnd, h1]
  constructor
  · simp [calc_cycletime_percentile, h]
  · by_cases hc : "date" ∈ kd.cols
    · simp [calc_throughput, hc, h2]
    · simp [calc_throughput, hc]

/-- C6 witness: the theorem instantiated at a concrete empty table. -/
theorem c6_empty_table_witness :
    calc_cycletime_percentile ⟨[50], 30, 100, 10, [85]⟩
      ⟨["project", "date", "issue", "cycletime"], []⟩ = none ∧
    calc_throughput ⟨["project", "date", "issue", "cycletime"], []⟩
      (some 0) (some 10) = none :=
  c6_empty_table ⟨[50], 30, 100, 10, [85]⟩ ⟨["project", "date", "issue", "cycletime"], []⟩
    (some 0) (some 10) rfl

/-- C8 counterexample: a project with exactly one record whose cycletime
is the non-integer `5/2`; `calc_cycletime_percentile` reports `3`, not
the record's cycletime `5/2`, so the claim as stated is false. -/
theorem c8_single_record_counterexample :
    (([⟨"A", 0, "i1", 5/2⟩] : List IssueRecord).filter (fun x => decide (x.project = "A"))
        = [⟨"A", 0, "i1", 5/2⟩]) ∧
    calc_cycletime_percentile ⟨[50], 30, 100, 10, [85]⟩
      ⟨["project", "date", "issue", "cycletime"], [⟨"A", 0, "i1", 5/2⟩]⟩
      = some [("A", [(50, 3)])] ∧
    ((3 : Rat) ≠ 5/2) := by
  with_unfolding_all decide

/-- C8 (amended): for a project with exactly one record,
`calc_cycletime_percentile` reports, at every requested percentile, the
ceiling of that record's cycletime — in particular exactly the record's
cycletime whenever it is an integer. -/
theorem c8_single_record_amended (cfg : Cfg) (kd : KanbanData) (proj : String)
    (r : IssueRecord) (p : Rat)
    (hfilt : kd.rows.filter (fun x => decide (x.project = proj)) = [r])
    (hp : p ∈ cfg.cycletimePercentiles) :
    ∃ ct row,
      calc_cycletime_percentile cfg kd = some ct ∧
      (proj, row) ∈ ct ∧
      (p, r.cycletime.ceil) ∈ row ∧
      (∀ z : Int, r.cycletime = (z : Rat) → r.cycletime.ceil = z) := by
  have hrmem : r ∈ kd.rows.filter (fun x => decide (x.project = proj)) := by
    rw [hfilt]
    exact List.mem_singleton.mpr rfl
  have hrrows : r ∈ kd.rows := List.mem_of_mem_filter hrmem
  have hrproj : r.project = proj := by
    have := List.of_mem_filter hrmem
    exact of_decide_eq_true this
  have hne : kd.rows ≠ [] := List.ne_nil_of_mem hrrows
  have hE : kd.rows.isEmpty = false := isEmpty_false_of_ne_nil hne
  have hcts : projectCycletimes kd.rows proj = [r.cycletime] := by
    unfold projectCycletimes
    rw [hfilt]
    rfl
  have hproj : proj ∈ kd.rows.map (·.project) :=
    List.mem_map.mpr ⟨r, hrrows, hrproj⟩
  refine ⟨(projectsOf kd.rows).map (fun pr =>
      (pr, cfg.cycletimePercentiles.map (fun x =>
        (x, (quantile (projectCycletimes kd.rows pr) (x / 100)).ceil)))),
    cfg.cycletimePercentiles.map (fun x =>
      (x, (quantile (projectCycletimes kd.rows proj) (x / 100)).ceil)),
    ?_, ?_, ?_, ?_⟩
  · simp [calc_cycletime_percentile, hE]
  · exact List.mem_map_of_mem _ ((mem_distinctSorted (l := kd.rows.map (·.project))).mpr hproj)
  · refine List.mem_map.mpr ⟨p, hp, ?_⟩
    rw [hcts, quantile_singleton]
  · intro z hz
    rw [hz, ratCeil_eq]
    exact Int.ceil_intCast z

/-- C8 witness: the amended theorem instantiated at a one-record table
with integer cycletime `7`, reporting `⌈7⌉ = 7`. -/
theorem c8_single_record_amended_witness :
    ∃ ct row,
      calc_cycletime_percentile ⟨[50], 30, 100, 10, [85]⟩
        ⟨["project", "date", "issue", "cycletime"], [⟨"A", 0, "i1", 7⟩]⟩ = some ct ∧
      ("A", row) ∈ ct ∧
      (50, (7 : Rat).ceil) ∈ row ∧
      (∀ z : Int, (7 : Rat) = (z : Rat) → (7 : Rat).ceil = z) :=
  c8_single_record_amended ⟨[50], 30, 100, 10, [85]⟩
    ⟨["project", "date", "issue", "cycletime"], [⟨"A", 0, "i1", 7⟩]⟩ "A" ⟨"A", 0, "i1", 7⟩ 50
    (by with_unfolding_all decide) (by with_unfolding_all decide)

/-- C10: a table without a `"date"` column makes `calc_throughput`
return the absent result for any date bounds. -/
theorem c10_no_date_column (kd : KanbanData) (start_date end_date : Option Int)
    (h : "date" ∉ kd.cols) :
    calc_throughput kd start_date end_date = none := by
  simp [calc_throughput, h]

/-- C10 witness: the theorem instantiated at a table whose columns lack
`"date"` but whose rows are populated. -/
theorem c10_no_date_column_witness :
    calc_throughput ⟨["project", "when", "issue", "cycletime"],
      [⟨"A", 0, "i1", 7⟩, ⟨"B", 2, "i2", 3⟩]⟩ (some 0) (some 10) = none :=
  c10_no_date_column ⟨["project", "when", "issue", "cycletime"],
    [⟨"A", 0, "i1", 7⟩, ⟨"B", 2, "i2", 3⟩]⟩ (some 0) (some 10)
    (by with_unfolding_all decide)

/-! ## Throughput lemmas -/

lemma find?_crosstab_of_mem {rows : List IssueRecord} {ds : List Int} {d : Int}
    (h : d ∈ ds) :
    (ds.map (fun x => (x, countDate rows x))).find? (fun q => decide (q.1 = d)) =
      some (d, countDate rows d) := by
  induction ds with
  | nil => cases h
  | cons x t ih =>
    by_cases hx : x = d
    · subst hx
      rw [List.map_cons, List.find?_cons_of_pos _ (by simp)]
    · have ht : d ∈ t := by
        cases List.mem_cons.mp h with
        | inl hh => exact absurd hh.symm hx
        | inr hh => exact hh
      rw [List.map_cons, List.find?_cons_of_neg _ (by simp [hx]), ih ht]

lemma find?_crosstab_of_not_mem {rows : List IssueRecord} {ds : List Int} {d : Int}
    (h : d ∉ ds) :
    (ds.map (fun x => (x, countDate rows x))).find? (fun q => decide (q.1 = d)) = none := by
  apply List.find?_eq_none.mpr
  intro q hq
  obtain ⟨x, hx, rfl⟩ := List.mem_map.mp hq
  simp only [decide_eq_true_eq]
  intro hxd
  exact h (hxd ▸ hx)

/-- Reindexing the crosstab at any day recovers the plain per-day record
count (0 on days with no record). -/
lemma lookupCount_crosstab (rows : List IssueRecord) (d : Int) :
    lookupCount (crosstab rows) d = countDate rows d := by
  unfold lookupCount crosstab
  by_cases h : d ∈ rows.map (·.date)
  · rw [find?_crosstab_of_mem (mem_distinctSorted.mpr h)]
  · rw [find?_crosstab_of_not_mem (fun hc => h (mem_distinctSorted.mp hc))]
    have hz : rows.filter (fun r => decide (r.date = d)) = [] := by
      rw [List.filter_eq_nil_iff]
      intro a ha
      simp only [decide_eq_true_eq]
      intro had
      exact h (List.mem_map.mpr ⟨a, ha, had⟩)
    show 0 = countDate rows d
    unfold countDate
    rw [hz]
    rfl

lemma length_dateRange (s e : Int) : (dateRange s e).length = (e - s + 1).toNat := by
  simp [dateRange]

lemma mem_dateRange {s e d : Int} : d ∈ dateRange s e ↔ s ≤ d ∧ d ≤ e := by
  unfold dateRange
  constructor
  · intro h
    obtain ⟨i, hi, rfl⟩ := List.mem_map.mp h
    have := List.mem_range.mp hi
    omega
  · intro hd
    refine List.mem_map.mpr ⟨(d - s).toNat, List.mem_range.mpr ?_, ?_⟩ <;> omega

lemma nodup_dateRange (s e : Int) : (dateRange s e).Nodup := by
  unfold dateRange
  refine List.Nodup.map ?_ (List.nodup_range _)
  intro a b hab
  have hab2 : s + (a : Int) = s + (b : Int) := hab
  omega

lemma crosstab_ne_nil {rows : List IssueRecord} (h : rows ≠ []) : crosstab rows ≠ [] := by
  obtain ⟨r, hr⟩ := List.exists_mem_of_ne_nil rows h
  have hd : r.date ∈ distinctSorted (rows.map (·.date)) :=
    mem_distinctSorted.mpr (List.mem_map.mpr ⟨r, hr, rfl⟩)
  exact List.ne_nil_of_mem (List.mem_map_of_mem _ hd)

/-- C2: when both bounds are supplied and at least one record falls in
the window, `calc_throughput` returns the densified series: its keys are
exactly the calendar days of `[s, e]`, each exactly once, its length is
`(e - s).days + 1`, every count is the per-day count of the filtered
table, and a day with no filtered record appears with count 0. -/
theorem c2_throughput_dense (kd : KanbanData) (s e : Int)
    (hcol : "date" ∈ kd.cols)
    (hrec : ∃ r ∈ kd.rows, s ≤ r.date ∧ r.date ≤ e) :
    ∃ tp, calc_throughput kd (some s) (some e) = some tp ∧
      tp.length = (e - s).toNat + 1 ∧
      tp.map Prod.fst = dateRange s e ∧
      (tp.map Prod.fst).Nodup ∧
      (∀ d : Int, d ∈ tp.map Prod.fst ↔ s ≤ d ∧ d ≤ e) ∧
      (∀ q ∈ tp, q.2 = countDate (filterEnd (filterStart kd.rows (some s)) (some e)) q.1) ∧
      (∀ d : Int, s ≤ d → d ≤ e →
        countDate (filterEnd (filterStart kd.rows (some s)) (some e)) d = 0 →
        (d, 0) ∈ tp) := by
  obtain ⟨r, hr, hs, he⟩ := hrec
  have hse : s ≤ e := le_trans hs he
  have hrmem : r ∈ filterEnd (filterStart kd.rows (some s)) (some e) := by
    unfold filterEnd filterStart
    exact List.mem_filter.mpr ⟨List.mem_filter.mpr ⟨hr, by simpa using hs⟩, by simpa using he⟩
  have hne : filterEnd (filterStart kd.rows (some s)) (some e) ≠ [] :=
    List.ne_nil_of_mem hrmem
  have hE : (filterEnd (filterStart kd.rows (some s)) (some e)).isEmpty = false :=
    isEmpty_false_of_ne_nil hne
  have hctE : (crosstab (filterEnd (filterStart kd.rows (some s)) (some e))).isEmpty = false :=
    isEmpty_false_of_ne_nil (crosstab_ne_nil hne)
  have hkeys :
      (((dateRange s e).map (fun d =>
          (d, lookupCount (crosstab (filterEnd (filterStart kd.rows (some s)) (some e))) d))).map
        Prod.fst) = dateRange s e := by
    rw [List.map_map]
    simp [Function.comp_def]
  refine ⟨(dateRange s e).map (fun d =>
      (d, lookupCount (crosstab (filterEnd (filterStart kd.rows (some s)) (some e))) d)),
    ?_, ?_, hkeys, ?_, ?_, ?_, ?_⟩
  · simp [calc_throughput, hcol, hE, hctE]
  · rw [List.length_map, length_dateRange]
    omega
  · rw [hkeys]
    exact nodup_dateRange s e
  · intro d
    rw [hkeys]
    exact mem_dateRange
  · intro q hq
    obtain ⟨d0, _, rfl⟩ := List.mem_map.mp hq
    exact lookupCount_crosstab _ d0
  · intro d h1 h2 h0
    refine List.mem_map.mpr ⟨d, mem_dateRange.mpr ⟨h1, h2⟩, ?_⟩
    rw [lookupCount_crosstab, h0]

/-- C2 witness: the theorem instantiated at a three-record table over
the window `[2, 6]`. -/
theorem c2_throughput_dense_witness :
    ∃ tp, calc_throughput ⟨["project", "date", "issue", "cycletime"],
        [⟨"A", 3, "i1", 1⟩, ⟨"A", 5, "i2", 1⟩, ⟨"A", 5, "i3", 1⟩]⟩
        (some 2) (some 6) = some tp ∧
      tp.length = ((6 : Int) - 2).toNat + 1 ∧
      tp.map Prod.fst = dateRange 2 6 ∧
      (tp.map Prod.fst).Nodup ∧
      (∀ d : Int, d ∈ tp.map Prod.fst ↔ 2 ≤ d ∧ d ≤ 6) ∧
      (∀ q ∈ tp, q.2 = countDate (filterEnd (filterStart
        [⟨"A", 3, "i1", 1⟩, ⟨"A", 5, "i2", 1⟩, ⟨"A", 5, "i3", 1⟩] (some 2)) (some 6)) q.1) ∧
      (∀ d : Int, 2 ≤ d → d ≤ 6 →
        countDate (filterEnd (filterStart
          [⟨"A", 3, "i1", 1⟩, ⟨"A", 5, "i2", 1⟩, ⟨"A", 5, "i3", 1⟩] (some 2)) (some 6)) d = 0 →
        (d, 0) ∈ tp) :=
  c2_throughput_dense ⟨["project", "date", "issue", "cycletime"],
      [⟨"A", 3, "i1", 1⟩, ⟨"A", 5, "i2", 1⟩, ⟨"A", 5, "i3", 1⟩]⟩ 2 6
    (by with_unfolding_all decide) (by with_unfolding_all decide)

/-- C9: with both bounds unset, `calc_throughput` neither filters nor
densifies: it returns the raw crosstab, whose keys are exactly the
distinct completion dates of the input (each exactly once) and whose
counts are the per-day record counts, all positive (no zero-filled
days). -/
theorem c9_no_bounds_raw_counts (kd : KanbanData)
    (hcol : "date" ∈ kd.cols) (hne : kd.rows ≠ []) :
    calc_throughput kd none none = some (crosstab kd.rows) ∧
    ((crosstab kd.rows).map Prod.fst).Nodup ∧
    (∀ d : Int, d ∈ (crosstab kd.rows).map Prod.fst ↔ d ∈ kd.rows.map (·.date)) ∧
    (∀ q ∈ crosstab kd.rows, q.2 = countDate kd.rows q.1 ∧ 0 < q.2) := by
  have hE : kd.rows.isEmpty = false := isEmpty_false_of_ne_nil hne
  have hmapfst : (crosstab kd.rows).map Prod.fst = distinctSorted (kd.rows.map (·.date)) := by
    unfold crosstab
    rw [List.map_map]
    simp [Function.comp_def]
  refine ⟨?_, ?_, ?_, ?_⟩
  · simp [calc_throughput, hcol, hE, filterStart, filterEnd]
  · rw [hmapfst]
    exact nodup_distinctSorted _
  · intro d
    rw [hmapfst]
    exact mem_distinctSorted
  · intro q hq
    obtain ⟨d0, hd0, rfl⟩ := List.mem_map.mp hq
    refine ⟨rfl, ?_⟩
    have hdm : d0 ∈ kd.rows.map (·.date) := mem_distinctSorted.mp hd0
    obtain ⟨w, hw, hwd⟩ := List.mem_map.mp hdm
    have hwf : w ∈ kd.rows.filter (fun x => decide (x.date = d0)) :=
      List.mem_filter.mpr ⟨hw, by simp [hwd]⟩
    exact List.length_pos.mpr (List.ne_nil_of_mem hwf)

/-- C9 witness: the theorem instantiated at a two-date table, no bounds. -/
theorem c9_no_bounds_raw_counts_witness :
    calc_throughput ⟨["project", "date", "issue", "cycletime"],
      [⟨"A", 5, "i1", 1⟩, ⟨"A", 3, "i2", 1⟩, ⟨"A", 5, "i3", 1⟩]⟩ none none =
      some (crosstab [⟨"A", 5, "i1", 1⟩, ⟨"A", 3, "i2", 1⟩, ⟨"A", 5, "i3", 1⟩]) ∧
    ((crosstab [⟨"A", 5, "i1", 1⟩, ⟨"A", 3, "i2", 1⟩, ⟨"A", 5, "i3", 1⟩]).map Prod.fst).Nodup ∧
    (∀ d : Int, d ∈ (crosstab [⟨"A", 5, "i1", 1⟩, ⟨"A", 3, "i2", 1⟩, ⟨"A", 5, "i3", 1⟩]).map
        Prod.fst ↔
      d ∈ ([⟨"A", 5, "i1", 1⟩, ⟨"A", 3, "i2", 1⟩, ⟨"A", 5, "i3", 1⟩] : List IssueRecord).map
        (·.date)) ∧
    (∀ q ∈ crosstab [⟨"A", 5, "i1", 1⟩, ⟨"A", 3, "i2", 1⟩, ⟨"A", 5, "i3", 1⟩],
      q.2 = countDate [⟨"A", 5, "i1", 1⟩, ⟨"A", 3, "i2", 1⟩, ⟨"A", 5, "i3", 1⟩] q.1 ∧ 0 < q.2) :=
  c9_no_bounds_raw_counts ⟨["project", "date", "issue", "cycletime"],
      [⟨"A", 5, "i1", 1⟩, ⟨"A", 3, "i2", 1⟩, ⟨"A", 5, "i3", 1⟩]⟩
    (by with_unfolding_all decide) (by with_unfolding_all decide)

/-! ## Simulation lemmas -/

lemma idxminAbs_spec (p : Rat) : ∀ (l : List Rat), l ≠ [] →
    idxminAbs p l < l.length ∧
    (∀ i, i < l.length → |l.getD (idxminAbs p l) 0 - p| ≤ |l.getD i 0 - p|) ∧
    (∀ i, i < idxminAbs p l → |l.getD (idxminAbs p l) 0 - p| < |l.getD i 0 - p|) := by
  intro l
  induction l with
  | nil => intro h; exact absurd rfl h
  | cons x t ih =>
    intro _
    cases t with
    | nil =>
      refine ⟨by simp [idxminAbs], ?_, ?_⟩
      · intro i hi
        have hi0 : i = 0 := by
          simp only [List.length_singleton] at hi
          omega
        subst hi0
        exact le_refl _
      · intro i hi
        simp [idxminAbs] at hi
    | cons y ys =>
      obtain ⟨ih1, ih2, ih3⟩ := ih (by simp)
      by_cases hc : |x - p| ≤ |(y :: ys).getD (idxminAbs p (y :: ys)) 0 - p|
      · have hidx : idxminAbs p (x :: y :: ys) = 0 := by
          simp only [idxminAbs, if_pos hc]
        refine ⟨by simp [hidx], ?_, ?_⟩
        · intro i hi
          rw [hidx]
          cases i with
          | zero => exact le_refl _
          | succ n =>
            have hn : n < (y :: ys).length := by
              simpa using Nat.lt_of_succ_lt_succ hi
            calc |(x :: y :: ys).getD 0 0 - p| = |x - p| := by rw [List.getD_cons_zero]
              _ ≤ |(y :: ys).getD (idxminAbs p (y :: ys)) 0 - p| := hc
              _ ≤ |(y :: ys).getD n 0 - p| := ih2 n hn
              _ = |(x :: y :: ys).getD (n + 1) 0 - p| := by rw [List.getD_cons_succ]
        · intro i hi
          rw [hidx] at hi
          exact absurd hi (Nat.not_lt_zero i)
      · have hlt : |(y :: ys).getD (idxminAbs p (y :: ys)) 0 - p| < |x - p| := not_le.mp hc
        have hidx : idxminAbs p (x :: y :: ys) = idxminAbs p (y :: ys) + 1 := by
          simp only [idxminAbs, if_neg hc]
        have hgd : (x :: y :: ys).getD (idxminAbs p (y :: ys) + 1) 0 =
            (y :: ys).getD (idxminAbs p (y :: ys)) 0 := List.getD_cons_succ
        refine ⟨?_, ?_, ?_⟩
        · rw [hidx, List.length_cons]
          omega
        · intro i hi
          rw [hidx, hgd]
          cases i with
          | zero =>
            rw [List.getD_cons_zero]
            exact hlt.le
          | succ n =>
            have hn : n < (y :: ys).length := by
              simpa using Nat.lt_of_succ_lt_succ hi
            rw [List.getD_cons_succ]
            exact ih2 n hn
        · intro i hi
          rw [hidx] at hi
          rw [hidx, hgd]
          cases i with
          | zero =>
            rw [List.getD_cons_zero]
            exact hlt
          | succ n =>
            have hn : n < idxminAbs p (y :: ys) := Nat.lt_of_succ_lt_succ hi
            rw [List.getD_cons_succ]
            exact ih3 n hn

lemma snd_getD (l : List (Nat × Rat)) (i : Nat) :
    (l.map (fun q => q.2)).getD i 0 = (l.getD i (0, 0)).2 := by
  induction l generalizing i with
  | nil => simp
  | cons a t ih =>
    cases i with
    | zero => simp
    | succ n => simpa using ih n

lemma cumRows_length (total : Rat) : ∀ (rows : List (Nat × Nat)) (acc : Nat),
    (cumRows total acc rows).length = rows.length := by
  intro rows
  induction rows with
  | nil => intro acc; rfl
  | cons q t ih =>
    intro acc
    obtain ⟨v, f⟩ := q
    simp [cumRows, ih]

lemma freqSum_cons (q : Nat × Nat) (t : List (Nat × Nat)) :
    freqSum (q :: t) = q.2 + freqSum t := by
  simp [freqSum]

lemma cumRows_mem (total : Rat) : ∀ (rows : List (Nat × Nat)) (acc : Nat),
    ∀ q ∈ cumRows total acc rows,
      (∃ m : Nat, m ≤ acc + freqSum rows ∧ q.2 = 100 * (m : Rat) / total) ∧
      q.1 ∈ rows.map Prod.fst := by
  intro rows
  induction rows with
  | nil =>
    intro acc q hq
    simp [cumRows] at hq
  | cons w t ih =>
    intro acc q hq
    obtain ⟨v, f⟩ := w
    rcases List.mem_cons.mp hq with h | h
    · subst h
      constructor
      · refine ⟨acc + f, ?_, rfl⟩
        rw [freqSum_cons]
        omega
      · simp
    · obtain ⟨⟨m, hm, hq2⟩, hq1⟩ := ih (acc + f) q h
      constructor
      · refine ⟨m, ?_, hq2⟩
        rw [freqSum_cons]
        simp only at hm ⊢
        omega
      · rw [List.map_cons]
        exact List.mem_cons_of_mem _ hq1

lemma cumRows_getLast? (total : Rat) : ∀ (rows : List (Nat × Nat)) (acc : Nat), rows ≠ [] →
    (cumRows total acc rows).getLast? =
      rows.getLast?.map (fun q => (q.1, 100 * ((acc + freqSum rows : Nat) : Rat) / total)) := by
  intro rows
  induction rows with
  | nil => intro acc h; exact absurd rfl h
  | cons w t ih =>
    intro acc _
    obtain ⟨v, f⟩ := w
    cases t with
    | nil => simp [cumRows, freqSum]
    | cons w2 t2 =>
      obtain ⟨v2, f2⟩ := w2
      have heq := ih (acc + f) (by simp)
      have hsum : (acc + f) + freqSum ((v2, f2) :: t2) =
          acc + freqSum ((v, f) :: (v2, f2) :: t2) := by
        rw [freqSum_cons, freqSum_cons, freqSum_cons]
        omega
      have hshape : cumRows total acc ((v, f) :: (v2, f2) :: t2) =
          (v, 100 * ((acc + f : Nat) : Rat) / total) ::
          (v2, 100 * (((acc + f) + f2 : Nat) : Rat) / total) ::
          cumRows total ((acc + f) + f2) t2 := rfl
      have hshape2 : cumRows total (acc + f) ((v2, f2) :: t2) =
          (v2, 100 * (((acc + f) + f2 : Nat) : Rat) / total) ::
          cumRows total ((acc + f) + f2) t2 := rfl
      rw [hshape, List.getLast?_cons_cons, ← hshape2, heq, List.getLast?_cons_cons, hsum]

lemma freqSum_reverse (l : List (Nat × Nat)) : freqSum l.reverse = freqSum l := by
  simp [freqSum, List.map_reverse, List.sum_reverse]

lemma freqSum_groupFreq (l : List Nat) :
    freqSum (groupFreq l) = ((distinctSorted l).map (fun v => l.count v)).sum := by
  simp [groupFreq, freqSum, List.map_map, Function.comp_def]

lemma fst_groupFreq (l : List Nat) :
    (groupFreq l).map Prod.fst = distinctSorted l := by
  simp [groupFreq, List.map_map, Function.comp_def]

lemma groupFreq_ne_nil {l : List Nat} (h : l ≠ []) : groupFreq l ≠ [] := by
  obtain ⟨a, ha⟩ := List.exists_mem_of_ne_nil l h
  exact List.ne_nil_of_mem (List.mem_map_of_mem _ (mem_distinctSorted.mpr ha))

lemma buildDistribution_length (outcomes : List Nat) :
    (buildDistribution outcomes).length = (groupFreq outcomes).length := by
  unfold buildDistribution
  rw [cumRows_length, List.length_reverse]

lemma buildDistribution_ne_nil {outcomes : List Nat} (h : outcomes ≠ []) :
    buildDistribution outcomes ≠ [] := by
  intro hz
  apply groupFreq_ne_nil h
  have := buildDistribution_length outcomes
  rw [hz] at this
  exact List.length_eq_zero.mp this.symm

/-- C3: for every non-null throughput and non-empty outcome list,
`run_simulation` reports, for each requested percentile `p`, the `Items`
value of the distribution row whose cumulative probability is closest to
`p` in absolute difference, taking on ties the row that comes first in
the distribution's current (descending-by-total) order — always an
element of the empirical distribution, never an interpolated value. -/
theorem c3_nearest_neighbor (cfg : Cfg) (t : List (Int × Nat)) (outcomes : List Nat) (p : Rat)
    (hne : outcomes ≠ []) (hp : p ∈ cfg.montecarloPercentiles) :
    ∃ res row j,
      run_simulation cfg (some t) outcomes = some res ∧
      ("issues", row) ∈ res ∧
      ("montecarlo " ++ toString p ++ "%", nearestItem (buildDistribution outcomes) p) ∈ row ∧
      j < (buildDistribution outcomes).length ∧
      nearestItem (buildDistribution outcomes) p =
        ((buildDistribution outcomes).getD j (0, 0)).1 ∧
      (buildDistribution outcomes).getD j (0, 0) ∈ buildDistribution outcomes ∧
      (∀ q ∈ buildDistribution outcomes,
        |((buildDistribution outcomes).getD j (0, 0)).2 - p| ≤ |q.2 - p|) ∧
      (∀ i, i < j →
        |((buildDistribution outcomes).getD j (0, 0)).2 - p| <
          |((buildDistribution outcomes).getD i (0, 0)).2 - p|) := by
  have hdne : buildDistribution outcomes ≠ [] := buildDistribution_ne_nil hne
  have hpne : (buildDistribution outcomes).map (fun q => q.2) ≠ [] := by
    intro hz
    exact hdne (List.map_eq_nil_iff.mp hz)
  obtain ⟨h1, h2, h3⟩ := idxminAbs_spec p ((buildDistribution outcomes).map (fun q => q.2)) hpne
  have hlen : ((buildDistribution outcomes).map (fun q : Nat × Rat => q.2)).length =
      (buildDistribution outcomes).length := List.length_map _ _
  have hjlt : idxminAbs p ((buildDistribution outcomes).map (fun q => q.2)) <
      (buildDistribution outcomes).length := by
    rw [← hlen]
    exact h1
  refine ⟨[("issues", cfg.montecarloPercentiles.map (fun x =>
      ("montecarlo " ++ toString x ++ "%", nearestItem (buildDistribution outcomes) x)))],
    cfg.montecarloPercentiles.map (fun x =>
      ("montecarlo " ++ toString x ++ "%", nearestItem (buildDistribution outcomes) x)),
    idxminAbs p ((buildDistribution outcomes).map (fun q : Nat × Rat => q.2)),
    rfl, List.mem_singleton.mpr rfl, List.mem_map_of_mem _ hp, hjlt, ?_, ?_, ?_, ?_⟩
  · rfl
  · rw [List.getD_eq_getElem _ _ hjlt]
    exact List.getElem_mem _
  · intro q hq
    obtain ⟨i, hi, hqi⟩ := List.mem_iff_getElem.mp hq
    have hstep := h2 i (by rw [hlen]; exact hi)
    rw [snd_getD, snd_getD, List.getD_eq_getElem _ _ hi, hqi] at hstep
    exact hstep
  · intro i hij
    have hstep := h3 i hij
    rw [snd_getD, snd_getD] at hstep
    exact hstep

/-- C3 witness: the theorem instantiated at two outcomes `[2, 3]` and
percentile 50. -/
theorem c3_nearest_neighbor_witness :
    ∃ res row j,
      run_simulation ⟨[50], 30, 2, 1, [50]⟩ (some [(0, 1)]) [2, 3] = some res ∧
      ("issues", row) ∈ res ∧
      ("montecarlo " ++ toString (50 : Rat) ++ "%", nearestItem (buildDistribution [2, 3]) 50)
        ∈ row ∧
      j < (buildDistribution [2, 3]).length ∧
      nearestItem (buildDistribution [2, 3]) 50 = ((buildDistribution [2, 3]).getD j (0, 0)).1 ∧
      (buildDistribution [2, 3]).getD j (0, 0) ∈ buildDistribution [2, 3] ∧
      (∀ q ∈ buildDistribution [2, 3],
        |((buildDistribution [2, 3]).getD j (0, 0)).2 - 50| ≤ |q.2 - 50|) ∧
      (∀ i, i < j →
        |((buildDistribution [2, 3]).getD j (0, 0)).2 - 50| <
          |((buildDistribution [2, 3]).getD i (0, 0)).2 - 50|) :=
  c3_nearest_neighbor ⟨[50], 30, 2, 1, [50]⟩ [(0, 1)] [2, 3] 50
    (by with_unfolding_all decide) (by with_unfolding_all decide)

/-- C4: for every non-empty outcome list, the empirical distribution's
final row (the smallest distinct total, after the descending sort)
carries cumulative probability exactly 100, which is the maximum over
the whole distribution. -/
theorem c4_max_cumulative_probability (outcomes : List Nat) (hne : outcomes ≠ []) :
    ∃ q, (buildDistribution outcomes).getLast? = some q ∧
      q.2 = 100 ∧
      (∀ w ∈ buildDistribution outcomes, w.2 ≤ 100) ∧
      (∀ w ∈ buildDistribution outcomes, q.1 ≤ w.1) := by
  obtain ⟨a, ha⟩ := List.exists_mem_of_ne_nil outcomes hne
  obtain ⟨d0, tail, hds⟩ : ∃ d0 tail, distinctSorted outcomes = d0 :: tail := by
    cases hd : distinctSorted outcomes with
    | nil =>
      have hmem : a ∈ distinctSorted outcomes := mem_distinctSorted.mpr ha
      rw [hd] at hmem
      cases hmem
    | cons x t0 => exact ⟨x, t0, rfl⟩
  have hd0_mem : d0 ∈ outcomes := by
    apply mem_distinctSorted.mp
    rw [hds]
    exact List.mem_cons_self _ _
  have hc0 : 0 < outcomes.count d0 := List.count_pos_iff.mpr hd0_mem
  have htot : 0 < freqSum ((groupFreq outcomes).reverse) := by
    rw [freqSum_reverse, freqSum_groupFreq, hds, List.map_cons, List.sum_cons]
    omega
  have hdesc_ne : (groupFreq outcomes).reverse ≠ [] := by
    intro hz
    exact groupFreq_ne_nil hne (List.reverse_eq_nil_iff.mp hz)
  have hlast := cumRows_getLast? ((freqSum ((groupFreq outcomes).reverse) : Nat) : Rat)
    ((groupFreq outcomes).reverse) 0 hdesc_ne
  have hgl : ((groupFreq outcomes).reverse).getLast? = some (d0, outcomes.count d0) := by
    rw [List.getLast?_reverse, groupFreq, hds, List.map_cons]
    rfl
  refine ⟨(d0, 100 * ((0 + freqSum ((groupFreq outcomes).reverse) : Nat) : Rat) /
      ((freqSum ((groupFreq outcomes).reverse) : Nat) : Rat)), ?_, ?_, ?_, ?_⟩
  · show (buildDistribution outcomes).getLast? = _
    unfold buildDistribution
    rw [hlast, hgl]
    rfl
  · have hT0 : ((freqSum ((groupFreq outcomes).reverse) : Nat) : Rat) ≠ 0 :=
      Nat.cast_ne_zero.mpr (by omega)
    show 100 * ((0 + freqSum ((groupFreq outcomes).reverse) : Nat) : Rat) /
        ((freqSum ((groupFreq outcomes).reverse) : Nat) : Rat) = 100
    rw [Nat.zero_add, mul_div_assoc, div_self hT0, mul_one]
  · intro w hw
    simp only [buildDistribution] at hw
    obtain ⟨⟨m, hm, hw2⟩, _⟩ := cumRows_mem _ ((groupFreq outcomes).reverse) 0 w hw
    rw [hw2]
    have hmle : (m : Rat) ≤ ((freqSum ((groupFreq outcomes).reverse) : Nat) : Rat) :=
      Nat.cast_le.mpr (by omega)
    have hTpos : (0 : Rat) < ((freqSum ((groupFreq outcomes).reverse) : Nat) : Rat) := by
      exact_mod_cast htot
    rw [div_le_iff₀ hTpos]
    nlinarith [hmle]
  · intro w hw
    simp only [buildDistribution] at hw
    obtain ⟨_, hw1⟩ := cumRows_mem _ ((groupFreq outcomes).reverse) 0 w hw
    rw [List.map_reverse, fst_groupFreq, List.mem_reverse, hds] at hw1
    have hsorted := sorted_distinctSorted outcomes
    rw [hds] at hsorted
    show d0 ≤ w.1
    rcases List.mem_cons.mp hw1 with h | h
    · exact le_of_eq h.symm
    · exact List.rel_of_sorted_cons hsorted _ h

/-- C4 witness: the theorem instantiated at the outcomes `[2, 3, 2]`. -/
theorem c4_max_cumulative_probability_witness :
    ∃ q, (buildDistribution [2, 3, 2]).getLast? = some q ∧
      q.2 = 100 ∧
      (∀ w ∈ buildDistribution [2, 3, 2], w.2 ≤ 100) ∧
      (∀ w ∈ buildDistribution [2, 3, 2], q.1 ≤ w.1) :=
  c4_max_cumulative_probability [2, 3, 2] (by with_unfolding_all decide)

/-- C7 counterexample: a two-project table.  The cycletime result has
rows `A` and `B`; the forecast row is relabeled to the first row's
project `A`; the merge (pandas' default inner join) keeps only `A`, so
the left-side row `B` does not appear in the merged output, refuting the
outer-join claim. -/
theorem c7_outer_join_counterexample :
    calc_cycletime_percentile ⟨[50], 30, 1, 1, [50]⟩
        ⟨["project", "date", "issue", "cycletime"],
          [⟨"A", 0, "i1", 1⟩, ⟨"B", 0, "i2", 2⟩]⟩ =
      some [("A", [(50, 1)]), ("B", [(50, 2)])] ∧
    run_simulation ⟨[50], 30, 1, 1, [50]⟩
        (calc_throughput ⟨["project", "date", "issue", "cycletime"],
          [⟨"A", 0, "i1", 1⟩, ⟨"B", 0, "i2", 2⟩]⟩ none none) [5] =
      some [("issues", [("montecarlo 50%", 5)])] ∧
    firstProjectOf ⟨["project", "date", "issue", "cycletime"],
          [⟨"A", 0, "i1", 1⟩, ⟨"B", 0, "i2", 2⟩]⟩ = "A" ∧
    "B" ∈ ([("A", [((50 : Rat), (1 : Int))]), ("B", [(50, 2)])]).map (fun q => q.1) ∧
    "B" ∉ (mergeStep [("A", [((50 : Rat), (1 : Int))]), ("B", [(50, 2)])]
        [("issues", [("montecarlo 50%", (5 : Nat))])] "A").map (fun q => q.1) := by
  with_unfolding_all decide

/-- C7 (amended): the merge of `main` line 41 is pandas' default inner
join on the row index: a key appears in the merged output iff it appears
both in the cycletime table and in the relabeled forecast table. -/
theorem c7_merge_inner {α β : Type} (ct : List (String × α)) (mc : List (String × β))
    (fp k : String) :
    k ∈ (mergeStep ct mc fp).map (fun q => q.1) ↔
      (k ∈ ct.map (fun q => q.1) ∧
        k ∈ (renameIndex mc "issues" fp).map (fun q => q.1)) := by
  unfold mergeStep mergeInner
  constructor
  · intro h
    obtain ⟨w, hw, hwk⟩ := List.mem_map.mp h
    obtain ⟨q, hq, hqw⟩ := List.mem_filterMap.mp hw
    cases hfind : (renameIndex mc "issues" fp).find? (fun z => decide (z.1 = q.1)) with
    | none =>
      rw [hfind] at hqw
      cases hqw
    | some z =>
      rw [hfind] at hqw
      have hzmem : z ∈ renameIndex mc "issues" fp := List.mem_of_find?_eq_some hfind
      have hzp := List.find?_some (p := fun y : String × β => decide (y.1 = q.1)) hfind
      have hzpred : z.1 = q.1 := of_decide_eq_true hzp
      have hwq : w = (q.1, (q.2, z.2)) := (Option.some.inj hqw).symm
      constructor
      · refine List.mem_map.mpr ⟨q, hq, ?_⟩
        rw [← hwk, hwq]
      · refine List.mem_map.mpr ⟨z, hzmem, ?_⟩
        rw [hzpred, ← hwk, hwq]
  · intro hlr
    obtain ⟨hL, hR⟩ := hlr
    obtain ⟨q, hq, hqk⟩ := List.mem_map.mp hL
    obtain ⟨z, hz, hzk⟩ := List.mem_map.mp hR
    have hsome : ((renameIndex mc "issues" fp).find? (fun w => decide (w.1 = q.1))).isSome := by
      rw [List.find?_isSome]
      exact ⟨z, hz, by simp [hzk, hqk]⟩
    obtain ⟨w, hw⟩ := Option.isSome_iff_exists.mp hsome
    refine List.mem_map.mpr ⟨(q.1, (q.2, w.2)), List.mem_filterMap.mpr ⟨q, hq, ?_⟩, hqk⟩
    rw [hw]

end JiraMetrics
